import Mathlib

/-!
Verification of the yamake build orchestrator (drollings/yamake).

This file contains a shallow embedding of the resolver, orderer, scheduler,
validator, timestamp probe and target index of the repository, translated
from the Python sources:

* `yamake_builder.py` — `Builder.Enqueue` (abstract-dependency
  disambiguation: the ranked filter cascade and the per-candidate
  fall-back loop), `Builder.Initialize` (cycle validation),
  `Target.CheckTimeStamp` (timestamp probe);
* `yamake.py` — `Builder.Enqueue` entry (default request handling),
  `Target.finalizeInit` (name-to-handle rewriting);
* `yamake/core.py` — `Target.needs_update`, `Target.get_mtime`,
  `run_targets` (build-mode scheduling), `_order_by_dependencies`
  (dependency ordering), `Target.resolve_dependencies`,
  `TargetIndex.register` / `TargetIndex.get`.

Modelling conventions: target handles are natural numbers unless the
claim depends on a distinguished name (then `String` is used, matching
the Python dict keys); Python sets of targets are `Finset Nat`; file
modification times are rationals (`os.stat` returns a numeric mtime; no
floating-point rounding is relevant to any property proved here);
fallible code returns `Except` or a dedicated result type; Python `for`
loops over sets are parametrised by an explicit iteration list where the
order is observable.  Bounded `while` loops become fuel recursion with
the fuel taken from the source's literal counters.
-/

namespace Yamake

/-! ## Disambiguation of abstract dependencies, from `yamake_builder.py`

`Builder.Enqueue` (yamake_builder.py lines 371-424) resolves each
abstract element of `lDepends` by first applying the ranked test sets
`lTestSets` to the candidate set `lPP = dProviders[depend]`, and, if no
test set is a singleton, by a fall-back loop over the candidates.
-/

namespace Enqueue

/-- The graph data consulted by the disambiguation step of
`Builder.Enqueue`: per-target `Target.Depends()` (the empty set when the
`depends` field is `None`), `Target.IsAbstract()`, and the
direct-provider map `dProviders` built by `Builder.Initialize`. -/
structure BGraph where
  depends : Nat → Finset Nat
  isAbstract : Nat → Bool
  providers : Nat → Finset Nat

/-- The mutable sets of `Builder.Enqueue` at the point where the
disambiguation of one abstract dependency runs: `lQueueSet`,
`lProvides`, `lFullProvides`, `lAbstracts` and `lAbstractDepends`. -/
structure EnqState where
  queueSet : Finset Nat
  provides : Finset Nat
  fullProvides : Finset Nat
  abstracts : Finset Nat
  abstractDepends : Finset Nat

/-- The list `lTestSets` built by `Builder.Enqueue`
(yamake_builder.py lines 379-387) for the candidate provider set
`lPP = dProviders[depend]` of an abstract dependency `depend`. -/
def testSets (g : BGraph) (st : EnqState) (depend : Nat) : List (Finset Nat) :=
  let lPP := g.providers depend
  [ lPP ∩ st.queueSet,
    lPP ∩ ((st.provides ∪ st.queueSet) \ st.abstracts),
    lPP,
    lPP \ st.fullProvides,
    lPP \ st.abstractDepends,
    lPP \ st.abstracts,
    lPP \ (st.abstracts ∪ st.fullProvides) ]

/-- The selection loop over `lTestSets` (yamake_builder.py lines
389-393): stop at the first test set with exactly one element
(`if len(testSet) == 1`) and return that element
(`target = list(testSet)[0]`). -/
def firstSingleton : List (Finset Nat) → Option Nat
  | [] => none
  | s :: rest => if s.card = 1 then (s.sort (· ≤ ·)).head? else firstSingleton rest

/-- The ranked-filter stage of the disambiguation: the first test set
with exactly one candidate decides. -/
def cascadeChoice (g : BGraph) (st : EnqState) (depend : Nat) : Option Nat :=
  firstSingleton (testSets g st depend)

/-- `Target.NonAbstractDepends()` from yamake_builder.py. -/
def NonAbstractDepends (g : BGraph) (pp : Nat) : Finset Nat :=
  (g.depends pp).filter (fun d => ¬ g.isAbstract d)

/-- The per-candidate test of the fall-back loop of `Builder.Enqueue`
(yamake_builder.py lines 396-412): candidate `pp` is selected when any
of the four truthiness tests fires, in source order
(`ppNonAbstractDepends & lQueueSet`, `ppNonAbstractDepends &
lFullProvides`, `ppDepends & lQueueSet`, `ppDepends & lFullProvides`). -/
def passesFallback (g : BGraph) (st : EnqState) (pp : Nat) : Bool :=
  decide (NonAbstractDepends g pp ∩ st.queueSet ≠ ∅) ||
  decide (NonAbstractDepends g pp ∩ st.fullProvides ≠ ∅) ||
  decide (g.depends pp ∩ st.queueSet ≠ ∅) ||
  decide (g.depends pp ∩ st.fullProvides ≠ ∅)

/-- The fall-back loop `for pp in lPP:` of `Builder.Enqueue`: the first
candidate in iteration order that passes any of the four tests is
selected.  The iteration order of the Python set `lPP` is not specified,
so the loop is parametrised by the candidate list `cands`. -/
def fallbackChoice (g : BGraph) (st : EnqState) (cands : List Nat) : Option Nat :=
  cands.find? (passesFallback g st)

/-- The complete provider choice for one abstract dependency
(yamake_builder.py lines 376-415): the ranked filter cascade, then, if
it selected nothing (`if not target:`), the fall-back loop. -/
def chooseProvider (g : BGraph) (st : EnqState) (depend : Nat) (cands : List Nat) :
    Option Nat :=
  match cascadeChoice g st depend with
  | some t => some t
  | none => fallbackChoice g st cands

/-- Concrete graph used to exercise the fall-back loop: the abstract
dependency 7 has the two candidate providers 10 and 20; candidate 10
depends on 5 (covered by `fullProvides` only) and candidate 20 depends
on 6 (in `queueSet`). -/
def exG : BGraph where
  depends := fun t => if t = 10 then {5} else if t = 20 then {6} else ∅
  isAbstract := fun t => t = 7
  providers := fun t => if t = 7 then {10, 20} else ∅

/-- Enqueue state for `exG`: 6 is queued, 5 is provided, 7 is the
abstract dependency under disambiguation. -/
def exSt : EnqState where
  queueSet := {6}
  provides := {5}
  fullProvides := {5, 6}
  abstracts := {7}
  abstractDepends := {7}

/-- Graph on which the ranked filter cascade itself decides: the
abstract dependency 7 has the single candidate provider 10. -/
def exGUnique : BGraph where
  depends := fun _ => ∅
  isAbstract := fun t => t = 7
  providers := fun t => if t = 7 then {10} else ∅

/-- Enqueue state for `exGUnique` with nothing queued or provided yet. -/
def exStUnique : EnqState where
  queueSet := ∅
  provides := ∅
  fullProvides := ∅
  abstracts := {7}
  abstractDepends := {7}

end Enqueue

/-! ## Scheduler staleness check, from `yamake/core.py`

`Target.get_mtime` (lines 125-136), `Target.needs_update`
(lines 169-183), `Target.is_abstract` (lines 185-189) and the build-mode
branch of `run_targets` (lines 484-506).  By the time `run_targets`
walks the ordered sequence, `Target.resolve_dependencies` has rewritten
`depends` into target handles; the handles are resolved through an
environment `env`.  The filesystem is a partial map from paths to
mtimes.
-/

namespace Core

/-- The fields of `yamake/core.py`'s `Target` consulted by the
scheduler: `depends` (handles), `exists_in_fs`, `check_mtime`, the
`_is_abstract` constructor flag, and whether `action_func` is set. -/
structure CTarget where
  name : Nat
  depends : Finset Nat
  existsInFs : Option Nat
  checkMtime : Bool
  isAbstractFlag : Bool
  hasAction : Bool
deriving DecidableEq

/-- `Target.get_mtime`: `None` when no `exists_in_fs` is declared or the
path is absent; the file mtime when `check_mtime` is set, else `1.0`. -/
def getMtime (fs : Nat → Option ℚ) (t : CTarget) : Option ℚ :=
  match t.existsInFs with
  | none => none
  | some p =>
    match fs p with
    | none => none
    | some m => if t.checkMtime then some m else some 1

/-- `Target.is_abstract`: the `_is_abstract` flag, else no
`exists_in_fs` and no `action_func`. -/
def isAbstract (t : CTarget) : Bool :=
  if t.isAbstractFlag then true
  else !(t.existsInFs.isSome || t.hasAction)

/-- `Target.needs_update`: rebuild when no artifact is declared, the
artifact is missing, or some collected dependency mtime is strictly
newer than the target's mtime (`dep_mtime is not None and dep_mtime >
target_mtime`). -/
def needsUpdate (fs : Nat → Option ℚ) (t : CTarget) (depMtimes : List (Option ℚ)) :
    Bool :=
  if t.existsInFs.isNone then true
  else
    match getMtime fs t with
    | none => true
    | some tm =>
      depMtimes.any (fun d =>
        match d with
        | some dm => decide (tm < dm)
        | none => false)

/-- Outcome of the build-mode branch of `run_targets` for one target:
either the action path (`target.execute`) is taken or the target is
reported up to date. -/
inductive BuildOutcome
  | invoked
  | upToDate
deriving DecidableEq

/-- The dependency-mtime collection of `run_targets` (yamake/core.py
line 491): `[d.get_mtime() for d in target.depends if not
d.is_abstract()]`.  The Python set `target.depends` is iterated in an
unspecified order; the embedding enumerates it sorted, which is
immaterial because `needs_update` only asks whether some collected
mtime is newer. -/
def depMtimes (fs : Nat → Option ℚ) (env : Nat → CTarget) (t : CTarget) :
    List (Option ℚ) :=
  (((t.depends.sort (· ≤ ·)).map env).filter (fun d => ! isAbstract d)).map (getMtime fs)

/-- The build-mode branch of `run_targets` (yamake/core.py lines
490-497): collect the mtimes of the non-abstract dependencies, compute
`needs_update`, and invoke the action when `needs_update or not
target.exists_in_fs`. -/
def runTargetStep (fs : Nat → Option ℚ) (env : Nat → CTarget) (t : CTarget) :
    BuildOutcome :=
  if needsUpdate fs t (depMtimes fs env t) || t.existsInFs.isNone then .invoked
  else .upToDate

/-- The timestamp abstraction of the specification (spec section 3,
"Derived"): 0 when no artifact is declared or the path is absent, the
file mtime when `check_mtime` is set, else 1.0.  Used to state the
claims about staleness in the spec's vocabulary. -/
def specTimestamp (fs : Nat → Option ℚ) (t : CTarget) : ℚ :=
  match t.existsInFs with
  | none => 0
  | some p =>
    match fs p with
    | none => 0
    | some m => if t.checkMtime then m else 1

/-- Dependency used in the staleness counterexample: carries the
`_is_abstract` flag and, at the same time, an artifact at path 0. -/
def exDep : CTarget where
  name := 1
  depends := ∅
  existsInFs := some 0
  checkMtime := true
  isAbstractFlag := true
  hasAction := false

/-- Target used in the staleness counterexample: concrete, artifact at
path 1, depending on target 1 (`exDep`). -/
def exT : CTarget where
  name := 0
  depends := {1}
  existsInFs := some 1
  checkMtime := true
  isAbstractFlag := false
  hasAction := true

/-- Filesystem for the staleness counterexample: path 0 (the
dependency's artifact) has mtime 5, path 1 (the target's artifact) has
mtime 1. -/
def exFs : Nat → Option ℚ := fun p => if p = 0 then some 5 else if p = 1 then some 1 else none

/-- Environment for the staleness counterexample. -/
def exEnv : Nat → CTarget := fun n => if n = 1 then exDep else exT

end Core

/-! ## Dependency ordering, from `yamake/core.py`

`_order_by_dependencies` (lines 351-392): essential targets are emitted
in two fixed initial layers (no-dependency essentials, then essentials
with dependencies), everything provided by an essential is treated as
already handled, and the remaining targets are emitted in iteratively
computed ready layers, at most ten of them.  Abstract targets are
filtered from the flattened result.  Within a layer the source computes
`list(ready)` from a Python set; the embedding sorts the layer, which
fixes one of the unspecified orders (no property proved here depends on
the within-layer order).
-/

namespace Order

/-- The fields of `Target` consulted by `_order_by_dependencies`. -/
structure OTarget where
  depends : Finset Nat
  provides : Finset Nat
  isAbstract : Bool

/-- The iterative ready-layer loop of `_order_by_dependencies` (lines
380-389): up to `fuel` rounds (10 in the source), collect the targets of
`dependsSet` whose dependencies are all handled, stop as soon as no
target is ready. -/
def readyLayers (env : Nat → OTarget) : Nat → Finset Nat → Finset Nat → List (Finset Nat)
  | 0, _, _ => []
  | fuel + 1, dependsSet, allHandled =>
    let ready := dependsSet.filter
      (fun t => (env t).depends = ∅ ∨ (env t).depends ⊆ allHandled)
    if ready = ∅ then []
    else ready :: readyLayers env fuel (dependsSet \ ready) (allHandled ∪ ready)

/-- The set `provides_set` of `_order_by_dependencies` (lines 364-367),
which doubles as the initial `all_handled`: the essentials together with
everything they provide. -/
def baseHandled (env : Nat → OTarget) (essentialTargets : Finset Nat) : Finset Nat :=
  essentialTargets ∪ essentialTargets.biUnion (fun t => (env t).provides)

/-- The layer structure computed by `_order_by_dependencies`: the two
essential layers followed by the ready layers, with everything provided
by an essential pre-handled. -/
def orderLayers (env : Nat → OTarget) (targetsToBuild essentialTargets : Finset Nat) :
    List (Finset Nat) :=
  let noDeps := (targetsToBuild ∩ essentialTargets).filter (fun t => (env t).depends = ∅)
  let withDeps := (targetsToBuild ∩ essentialTargets).filter (fun t => (env t).depends ≠ ∅)
  let providesSet := baseHandled env essentialTargets
  let dependsSet := targetsToBuild \ providesSet
  [noDeps, withDeps] ++ readyLayers env 10 dependsSet providesSet

/-- The flat sequence returned by `_order_by_dependencies`: layers in
order, abstract targets dropped. -/
def orderByDependencies (env : Nat → OTarget) (targetsToBuild essentialTargets : Finset Nat) :
    List Nat :=
  ((orderLayers env targetsToBuild essentialTargets).flatMap
      (fun s => s.sort (· ≤ ·))).filter (fun t => ! (env t).isAbstract)

/-- Ordering counterexample: target 0 is an essential concrete target
depending on the concrete non-essential target 1. -/
def exEnvO : Nat → OTarget := fun n =>
  if n = 0 then ⟨{1}, ∅, false⟩ else ⟨∅, ∅, false⟩

/-- Ordering witness environment: target 1 depends on target 0, nothing
is essential. -/
def exEnvW : Nat → OTarget := fun n =>
  if n = 1 then ⟨{0}, ∅, false⟩ else ⟨∅, ∅, false⟩

end Order

/-! ## Cycle validation, from `yamake.py` `Builder.Initialize`

Lines 159-170: for each target `t`, the dependency frontier is expanded
iteratively (`lDepends = union of dep.depends over the frontier`) and a
`CYCLIC DEPENDENCY` error is raised when `t` reappears in the frontier,
when the frontier stabilises without emptying, or when the loop counter
(starting at 1 and incremented each round) reaches 10.  The embedding
represents frontiers as `Finset Nat`; the source compares frontiers with
Python list equality, whose outcome on equal-element frontiers depends
on the unspecified order that `list(set(...))` produced, but a stable
non-empty frontier that escapes that comparison is caught by the counter
bound in a later round, so whether the check raises is the same in both
representations.
-/

namespace Cycle

/-- One frontier expansion: the union of the dependency sets of the
frontier (`chain.from_iterable([dep.depends for dep in lDepends])`). -/
def depFrontier (deps : Nat → Finset Nat) (F : Finset Nat) : Finset Nat :=
  F.biUnion deps

/-- The bounded frontier loop of `Builder.Initialize`.  `counter` starts
at 1; each round raises (`true`) when the target reappears, when the
incremented counter reaches 10, or when the frontier stabilises; the
loop ends cleanly (`false`) when the frontier empties.  The structural
fuel is the number of rounds the counter bound still allows. -/
def cyclicLoop (deps : Nat → Finset Nat) (t : Nat) : Nat → Nat → Finset Nat → Bool
  | _, 0, _ => false
  | counter, fuel + 1, F =>
    if F = ∅ then false
    else if t ∈ F then true
    else
      let Fn := depFrontier deps F
      if 10 ≤ counter + 1 ∨ Fn = F then true
      else cyclicLoop deps t (counter + 1) fuel Fn

/-- The per-target cycle check of `Builder.Initialize`: the loop starts
from `t.depends` with `counter = 1`, so at most 9 rounds can run before
the counter bound raises. -/
def checkCyclic (deps : Nat → Finset Nat) (t : Nat) : Bool :=
  cyclicLoop deps t 1 9 (deps t)

/-- The whole-graph validation outcome: `Builder.Initialize` runs the
check for every registered target and raises on the first failure. -/
def validateRaises (deps : Nat → Finset Nat) (ts : List Nat) : Bool :=
  ts.any (checkCyclic deps)

/-- Walks through the `depends` relation: `DepWalk deps n a b` holds
when there is a chain of `n` dependency steps from `a` to `b`. -/
inductive DepWalk (deps : Nat → Finset Nat) : Nat → Nat → Nat → Prop
  | refl (a : Nat) : DepWalk deps 0 a a
  | step {n a b c : Nat} : b ∈ deps a → DepWalk deps n b c → DepWalk deps (n + 1) a c

/-- Bounded decidable self-reachability: target `t` reappears in one of
the first `bound` dependency frontiers.  On a graph whose targets and
edges live below the bound this is equivalent to `t` lying on a
dependency cycle. -/
def selfReachWithin (deps : Nat → Finset Nat) (bound : Nat) (t : Nat) : Bool :=
  (List.range bound).any (fun k => t ∈ (depFrontier deps)^[k] (deps t))

/-- An acyclic ten-target dependency chain: target `i` depends on
`i + 1` for `i < 9`, target 9 depends on nothing. -/
def chainDeps : Nat → Finset Nat := fun i => if i < 9 then {i + 1} else ∅

end Cycle

/-! ## Request entry of `Builder.Enqueue`, from `yamake.py`

Lines 310-320: an empty (falsy) request list falls back to the depends
of the target named `default`; if there is none, the code executes
`return False, lOutput` where `lOutput` is an unbound local name, so the
branch raises `NameError` instead of returning a failure value.
-/

namespace Request

/-- The slice of a target consulted by the request entry: its `depends`
names (`Target.depends` after `finalizeInit`). -/
structure DTarget where
  depends : Finset String
deriving DecidableEq

/-- Result of the request entry check: either resolution proceeds with a
non-empty request set, or the code crashes on the unbound local
`lOutput` (`return False, lOutput`). -/
inductive EntryResult
  | proceed (requested : Finset String)
  | nameErrorCrash
deriving DecidableEq

/-- The entry of `Builder.Enqueue` (yamake.py lines 310-320): when the
request is empty, use the depends of the `default` target if it exists
and has a non-empty `depends`; otherwise execute the failure return,
which references the unbound local `lOutput`. -/
def enqueueEntry (index : String → Option DTarget) (request : Finset String) :
    EntryResult :=
  if request = ∅ then
    match index "default" with
    | some d => if d.depends = ∅ then .nameErrorCrash else .proceed d.depends
    | none => .nameErrorCrash
  else .proceed request

end Request

/-! ## Name-to-handle rewriting, from `yamake.py` and `yamake/core.py`

`Target.finalizeInit` (yamake.py lines 569-574) rewrites the string
lists in `depends`/`provides` through `builder.index[i]`, raising
`KeyError` on an unknown name.  `Target.resolve_dependencies`
(yamake/core.py lines 120-123) rewrites through `targets_dict[d] for d
in self.depends if d in targets_dict`, silently dropping unknown names.
Registered handles are modelled as natural numbers.
-/

namespace Finalize

/-- Dictionary-lookup name resolution as in `finalizeInit`:
`builder.index[i]` raises `KeyError` on a missing key.  The error case
carries the missing name.  The Python set comprehension evaluates the
lookups in an unspecified order, which only affects which missing name
is reported, not whether resolution fails. -/
def resolveNamesStrict (index : String → Option Nat) : List String → Except String (List Nat)
  | [] => .ok []
  | n :: rest =>
    match index n with
    | some t =>
      match resolveNamesStrict index rest with
      | .ok l => .ok (t :: l)
      | .error e => .error e
    | none => .error n

/-- The string lists of a freshly loaded target. -/
structure FTarget where
  depends : List String
  provides : List String

/-- `Target.finalizeInit` (yamake.py): rewrite `depends`, then
`provides`, through the index; an unknown name raises `KeyError`. -/
def finalizeInit (index : String → Option Nat) (t : FTarget) :
    Except String (List Nat × List Nat) :=
  match resolveNamesStrict index t.depends with
  | .error e => .error e
  | .ok ds =>
    match resolveNamesStrict index t.provides with
    | .error e => .error e
    | .ok ps => .ok (ds, ps)

/-- `Target.resolve_dependencies` (yamake/core.py lines 120-123): keep
only the names found in the index and rewrite them to handles; unknown
names are dropped without any error. -/
def resolveDependenciesCore (index : String → Option Nat) (names : List String) :
    List Nat :=
  names.filterMap index

/-- Index for the finalize counterexample and witness: only the names
`a` and `b` are registered. -/
def exIndex : String → Option Nat := fun n =>
  if n = "a" then some 0 else if n = "b" then some 1 else none

/-- Target for the finalize witness: depends on `a`, provides `b`. -/
def exFT : FTarget := ⟨["a"], ["b"]⟩

end Finalize

/-! ## Timestamp probe, from `yamake_builder.py`

`Target.CheckTimeStamp` (lines 524-533) and the probe
`[t.CheckTimeStamp(self, dTimeStamps) for t in self.lTargets]` at the
start of `Builder.Enqueue` (line 254).  `dTimeStamps` is a
`defaultdict(float)`, so a target never written reads back as 0.  The
`%`-substitution of the `exists` path template against the configuration
is abstracted as a function `subst` on paths.
-/

namespace TimeStamp

/-- The fields of `yamake_builder.py`'s `Target` consulted by
`CheckTimeStamp`: the name, the `exists` path template (Python-falsy
values modelled as `none`) and the truthiness of the `mtime` field
(named `check_mtime` in the spec). -/
structure PTarget where
  name : String
  existsPath : Option String
  mtimeFlag : Bool
deriving DecidableEq

/-- `Target.CheckTimeStamp`: when the target declares an artifact and
the substituted path exists, record the file mtime (when the `mtime`
flag is set) or `1.0`; otherwise leave the timestamp map unchanged. -/
def CheckTimeStamp (subst : String → String) (fs : String → Option ℚ)
    (t : PTarget) (stamps : String → ℚ) : String → ℚ :=
  match t.existsPath with
  | none => stamps
  | some pathTemplate =>
    match fs (subst pathTemplate) with
    | none => stamps
    | some m =>
      fun n => if n = t.name then (if t.mtimeFlag then m else 1) else stamps n

/-- The timestamp probe over all registered targets, starting from the
`defaultdict(float)` with default 0. -/
def probeTimeStamps (subst : String → String) (fs : String → Option ℚ)
    (ts : List PTarget) : String → ℚ :=
  ts.foldl (fun st t => CheckTimeStamp subst fs t st) (fun _ => 0)

/-- Target for the probe witness: artifact at path `p` with the `mtime`
flag set. -/
def exPT : PTarget := ⟨"a", some "p", true⟩

/-- Filesystem for the probe witness: path `p` has mtime 3. -/
def exPFs : String → Option ℚ := fun p => if p = "p" then some 3 else none

end TimeStamp

/-! ## Target index, from `yamake/core.py`

`TargetIndex.register` (lines 50-59) and `TargetIndex.get`
(lines 61-63): `register` writes the target into `self.targets` under
its name — overwriting any earlier entry, with only a logged warning —
and extends the `essentials` and `default_targets` name sets;
`get` is a dictionary lookup.
-/

namespace Index

/-- The fields of a registered target consulted by `TargetIndex`: its
name and the `essential` and `is_default` flags.  The `id` field stands
for the rest of the object's identity, so that two registrations under
the same name are distinguishable. -/
structure RTarget where
  name : String
  essential : Bool
  isDefault : Bool
  id : Nat
deriving DecidableEq

/-- The state of `TargetIndex`. -/
structure TargetIndexS where
  targets : String → Option RTarget
  essentials : Finset String
  defaultTargets : Finset String

/-- `TargetIndex.register`: store the target under its name (replacing
any earlier entry; the source only logs a warning in that case) and
record its `essential` and `is_default` flags. -/
def register (idx : TargetIndexS) (t : RTarget) : TargetIndexS where
  targets := fun n => if n = t.name then some t else idx.targets n
  essentials := if t.essential then insert t.name idx.essentials else idx.essentials
  defaultTargets :=
    if t.isDefault then insert t.name idx.defaultTargets else idx.defaultTargets

/-- `TargetIndex.get`: dictionary lookup by name. -/
def get (idx : TargetIndexS) (n : String) : Option RTarget :=
  idx.targets n

end Index

/-! ## Theorems -/

/-- Characterisation of the test-set selection loop: it returns `some t`
exactly when some test set is the first one with exactly one element and
`t` is that element. -/
theorem firstSingleton_eq_some (L : List (Finset Nat)) (t : Nat) :
    Enqueue.firstSingleton L = some t ↔
      ∃ i, i < L.length ∧ (L.getD i ∅).card = 1 ∧ t ∈ L.getD i ∅ ∧
        ∀ j, j < i → (L.getD j ∅).card ≠ 1 := by
  induction L with
  | nil => simp [Enqueue.firstSingleton]
  | cons s rest ih =>
    rw [Enqueue.firstSingleton]
    by_cases h : s.card = 1
    · obtain ⟨a, ha⟩ := Finset.card_eq_one.mp h
      subst ha
      rw [if_pos h, Finset.sort_singleton]
      constructor
      · intro ht
        simp only [List.head?_cons, Option.some.injEq] at ht
        exact ⟨0, by simp, by simp, by simp [ht], fun j hj => absurd hj (Nat.not_lt_zero j)⟩
      · rintro ⟨i, _, hcard, hmem, hlt⟩
        match i with
        | 0 => simp_all
        | i + 1 => exact absurd h (hlt 0 (Nat.succ_pos i))
    · rw [if_neg h, ih]
      constructor
      · rintro ⟨i, hi, hcard, hmem, hlt⟩
        refine ⟨i + 1, by simpa using hi, by simpa using hcard, by simpa using hmem, ?_⟩
        intro j hj
        match j with
        | 0 => simpa using h
        | j + 1 => simpa using hlt j (by omega)
      · rintro ⟨i, hi, hcard, hmem, hlt⟩
        match i with
        | 0 => simp_all
        | i + 1 =>
          refine ⟨i, by simpa using hi, by simpa using hcard, by simpa using hmem, ?_⟩
          intro j hj
          simpa using hlt (j + 1) (by omega)

/-- C1: for every abstract dependency `depend` with candidate provider
set `P = dProviders[depend]`, the disambiguation of `Builder.Enqueue`
applies the ranked filters in exactly the normative order
(a) `P ∩ queue_set`, (b) `P ∩ ((provides ∪ queue_set) − abstracts)`,
(c) `P`, (d) `P − full_provides`, (e) `P − abstract_depends_set`,
(f) `P − abstracts`, (g) `P − (abstracts ∪ full_provides)`, committing
the provider selected by the first filter whose result has exactly one
element; a filter whose result has zero, or two or more, elements
selects nothing and the next filter is tried. -/
theorem C1_ranked_filter_cascade (g : Enqueue.BGraph) (st : Enqueue.EnqState)
    (depend t : Nat) :
    Enqueue.testSets g st depend =
      [ g.providers depend ∩ st.queueSet,
        g.providers depend ∩ ((st.provides ∪ st.queueSet) \ st.abstracts),
        g.providers depend,
        g.providers depend \ st.fullProvides,
        g.providers depend \ st.abstractDepends,
        g.providers depend \ st.abstracts,
        g.providers depend \ (st.abstracts ∪ st.fullProvides) ] ∧
    (Enqueue.cascadeChoice g st depend = some t ↔
      ∃ i, i < 7 ∧ ((Enqueue.testSets g st depend).getD i ∅).card = 1 ∧
        t ∈ (Enqueue.testSets g st depend).getD i ∅ ∧
        ∀ j, j < i → ((Enqueue.testSets g st depend).getD j ∅).card ≠ 1) := by
  refine ⟨rfl, ?_⟩
  have hlen : (Enqueue.testSets g st depend).length = 7 := rfl
  rw [Enqueue.cascadeChoice, firstSingleton_eq_some, hlen]

/-- C2 counterexample: with candidates iterated as `[10, 20]` (name
order), the fall-back selects candidate 10, whose depends intersect only
`full_provides`, although candidate 20's depends intersect `queue_set` —
so a candidate whose depends intersect `queue_set` is not preferred over
one whose depends intersect `full_provides`. -/
theorem C2_counterexample :
    Enqueue.chooseProvider Enqueue.exG Enqueue.exSt 7 [10, 20] = some 10 ∧
    (Enqueue.exG.depends 20 ∩ Enqueue.exSt.queueSet).Nonempty ∧
    Enqueue.exG.depends 10 ∩ Enqueue.exSt.queueSet = ∅ ∧
    (Enqueue.exG.depends 10 ∩ Enqueue.exSt.fullProvides).Nonempty := by
  decide

/-- C2 amended: when the ranked filter cascade leaves more than one
candidate, the fall-back loop examines the candidates one at a time in
iteration order and selects the first candidate that passes any of its
four intersection tests (non-abstract depends against `queue_set`, then
against `full_provides`, then full depends against `queue_set`, then
against `full_provides`); the `queue_set` test precedes the
`full_provides` test only within a single candidate, not across
candidates. -/
theorem C2_fallback_first_match (g : Enqueue.BGraph) (st : Enqueue.EnqState)
    (cands : List Nat) (pp : Nat) :
    Enqueue.fallbackChoice g st cands = some pp ↔
      Enqueue.passesFallback g st pp = true ∧
      ∃ l₁ l₂, cands = l₁ ++ pp :: l₂ ∧
        ∀ c ∈ l₁, Enqueue.passesFallback g st c = false := by
  rw [Enqueue.fallbackChoice, List.find?_eq_some]
  simp

/-- C5 counterexample: two iteration orders of the same candidate set
give different providers, so resolution is not independent of set
iteration order and candidates are not sorted by name before the
filters run. -/
theorem C5_counterexample :
    Enqueue.chooseProvider Enqueue.exG Enqueue.exSt 7 [10, 20] ≠
      Enqueue.chooseProvider Enqueue.exG Enqueue.exSt 7 [20, 10] ∧
    List.Perm [20, 10] [10, 20] := by
  decide

/-- C5 amended: the ranked filter cascade is a function of the candidate
set alone, so whenever it selects a provider, the complete disambiguation
returns that provider for every iteration order of the candidates;
only when the cascade selects nothing does the fall-back consult the
iteration order. -/
theorem C5_cascade_determines (g : Enqueue.BGraph) (st : Enqueue.EnqState)
    (depend t : Nat) (cands : List Nat)
    (h : Enqueue.cascadeChoice g st depend = some t) :
    Enqueue.chooseProvider g st depend cands = some t := by
  rw [Enqueue.chooseProvider, h]

/-- Witness for `C5_cascade_determines` at a concrete graph whose
cascade singles out provider 10. -/
theorem C5_cascade_determines_witness :
    Enqueue.cascadeChoice Enqueue.exGUnique Enqueue.exStUnique 7 = some 10 ∧
    Enqueue.chooseProvider Enqueue.exGUnique Enqueue.exStUnique 7 [20, 10] = some 10 := by
  have ht : Enqueue.testSets Enqueue.exGUnique Enqueue.exStUnique 7 =
      [∅, ∅, {10}, {10}, {10}, {10}, {10}] := by decide
  have hc : Enqueue.cascadeChoice Enqueue.exGUnique Enqueue.exStUnique 7 = some 10 := by
    rw [Enqueue.cascadeChoice, ht]
    simp [Enqueue.firstSingleton, Finset.sort_singleton]
  exact ⟨hc, C5_cascade_determines _ _ _ _ _ hc⟩

/-- Relation between `Target.get_mtime` and the spec's timestamp
abstraction: `get_mtime` returns `None` exactly on timestamp 0, and the
recorded mtime otherwise. -/
theorem getMtime_specTimestamp (fs : Nat → Option ℚ) (d : Core.CTarget) :
    (Core.getMtime fs d = none ∧ Core.specTimestamp fs d = 0) ∨
    Core.getMtime fs d = some (Core.specTimestamp fs d) := by
  rcases h : d.existsInFs with _ | q
  · exact Or.inl ⟨by simp [Core.getMtime, h], by simp [Core.specTimestamp, h]⟩
  · rcases h2 : fs q with _ | m
    · exact Or.inl ⟨by simp [Core.getMtime, h, h2], by simp [Core.specTimestamp, h, h2]⟩
    · right
      rcases hc : d.checkMtime <;>
        simp [Core.getMtime, Core.specTimestamp, h, h2, hc]

/-- C3 counterexample: the target `exT` has an artifact with timestamp
1 and a single dependency whose timestamp is 5 (strictly newer), yet
`run_targets` does not invoke the action and reports the target up to
date, because the dependency carries the `_is_abstract` flag and is
filtered out before the staleness check. -/
theorem C3_counterexample :
    Core.runTargetStep Core.exFs Core.exEnv Core.exT = Core.BuildOutcome.upToDate ∧
    Core.exT.existsInFs.isSome = true ∧
    Core.specTimestamp Core.exFs Core.exT ≠ 0 ∧
    (1 : Nat) ∈ Core.exT.depends ∧
    Core.specTimestamp Core.exFs Core.exT < Core.specTimestamp Core.exFs (Core.exEnv 1) := by
  have hsort : Core.exT.depends.sort (· ≤ ·) = [1] := by
    rw [show Core.exT.depends = {1} from rfl, Finset.sort_singleton]
  have hdm : Core.depMtimes Core.exFs Core.exEnv Core.exT = [] := by
    unfold Core.depMtimes
    rw [hsort]
    decide
  refine ⟨?_, by decide, by decide, by decide, by decide⟩
  unfold Core.runTargetStep
  rw [hdm]
  decide

/-- C3 amended: in build mode, the action of a target T is invoked iff
T has no artifact, T's timestamp is 0, or some NON-ABSTRACT dependency
of T has a timestamp strictly greater than T's; in particular, when T's
artifact exists and every non-abstract dependency's timestamp is at most
T's, the target is reported up to date.  Stated under the assumption
that on-disk mtimes are positive. -/
theorem C3_build_invocation (fs : Nat → Option ℚ) (env : Nat → Core.CTarget)
    (t : Core.CTarget) (hpos : ∀ p m, fs p = some m → 0 < m) :
    Core.runTargetStep fs env t = Core.BuildOutcome.invoked ↔
      t.existsInFs = none ∨ Core.specTimestamp fs t = 0 ∨
        ∃ d ∈ t.depends, Core.isAbstract (env d) = false ∧
          Core.specTimestamp fs t < Core.specTimestamp fs (env d) := by
  unfold Core.runTargetStep
  rcases ht : t.existsInFs with _ | p
  · simp [Core.needsUpdate, ht]
  · have hiff :
        (if Core.needsUpdate fs t (Core.depMtimes fs env t) ||
            (Option.some p).isNone then Core.BuildOutcome.invoked
          else Core.BuildOutcome.upToDate) = Core.BuildOutcome.invoked ↔
          Core.needsUpdate fs t (Core.depMtimes fs env t) = true := by
      by_cases hc : Core.needsUpdate fs t (Core.depMtimes fs env t) = true <;>
        simp [hc]
    rw [hiff]
    rcases hf : fs p with _ | m
    · have hnu : Core.needsUpdate fs t (Core.depMtimes fs env t) = true := by
        simp [Core.needsUpdate, Core.getMtime, ht, hf]
      have hst : Core.specTimestamp fs t = 0 := by
        simp [Core.specTimestamp, ht, hf]
      simp [hnu, hst]
    · set tm : ℚ := if t.checkMtime then m else 1 with htm
      have hst : Core.specTimestamp fs t = tm := by
        simp [Core.specTimestamp, ht, hf]
      have htmpos : 0 < tm := by
        rw [htm]
        split
        · exact hpos p m hf
        · norm_num
      have hget : Core.getMtime fs t = some tm := by
        rcases hcm : t.checkMtime <;>
          simp [Core.getMtime, ht, hf, htm, hcm]
      have hnu : Core.needsUpdate fs t (Core.depMtimes fs env t) = true ↔
          ∃ x ∈ Core.depMtimes fs env t,
            (match x with
              | some dm => decide (tm < dm)
              | none => false) = true := by
        rw [Core.needsUpdate, hget]
        simp only [ht, Option.isNone_some, Bool.false_eq_true, if_false,
          List.any_eq_true]
      rw [hnu, hst]
      have hleft : ¬ (Option.some p = none) := by simp
      have hzero : ¬ (tm = 0) := ne_of_gt htmpos
      simp only [hleft, hzero, false_or]
      constructor
      · rintro ⟨x, hx, hxpred⟩
        rw [Core.depMtimes, List.mem_map] at hx
        obtain ⟨dt, hdt, rfl⟩ := hx
        rw [List.mem_filter] at hdt
        obtain ⟨hdt1, hdt2⟩ := hdt
        rw [List.mem_map] at hdt1
        obtain ⟨d, hd, rfl⟩ := hdt1
        rw [Finset.mem_sort] at hd
        refine ⟨d, hd, by simpa using hdt2, ?_⟩
        rcases getMtime_specTimestamp fs (env d) with ⟨hnone, _⟩ | hsome
        · rw [hnone] at hxpred
          simp at hxpred
        · rw [hsome] at hxpred
          simpa using hxpred
      · rintro ⟨d, hd, habs, hlt⟩
        refine ⟨Core.getMtime fs (env d), ?_, ?_⟩
        · rw [Core.depMtimes, List.mem_map]
          refine ⟨env d, ?_, rfl⟩
          rw [List.mem_filter]
          refine ⟨?_, by simp [habs]⟩
          rw [List.mem_map]
          exact ⟨d, (Finset.mem_sort _).mpr hd, rfl⟩
        · rcases getMtime_specTimestamp fs (env d) with ⟨_, hzero2⟩ | hsome
          · rw [hzero2] at hlt
            exact absurd (lt_trans htmpos hlt) (lt_irrefl 0)
          · rw [hsome]
            simpa using hlt

/-- Dependency walks compose. -/
theorem depWalk_trans {deps : Nat → Finset Nat} :
    ∀ {m a b}, Cycle.DepWalk deps m a b → ∀ {n c}, Cycle.DepWalk deps n b c →
      Cycle.DepWalk deps (m + n) a c := by
  intro m a b h1
  induction h1 with
  | refl a =>
    intro n c h2
    rw [Nat.zero_add]
    exact h2
  | @step m a b2 b hmem w ih =>
    intro n c h2
    rw [Nat.succ_add]
    exact .step hmem (ih h2)

/-- A dependency walk extends by one step at its end. -/
theorem depWalk_snoc {deps : Nat → Finset Nat} :
    ∀ {n a b}, Cycle.DepWalk deps n a b → ∀ {c}, c ∈ deps b →
      Cycle.DepWalk deps (n + 1) a c := by
  intro n a b h
  induction h with
  | refl a =>
    intro c hc
    exact .step hc (.refl c)
  | @step n a b2 b hmem w ih =>
    intro c hc
    exact .step hmem (ih hc)

/-- A dependency walk of positive length decomposes at its last step. -/
theorem depWalk_unsnoc {deps : Nat → Finset Nat} :
    ∀ {n a c}, Cycle.DepWalk deps (n + 1) a c →
      ∃ b, Cycle.DepWalk deps n a b ∧ c ∈ deps b := by
  intro n
  induction n with
  | zero =>
    intro a c h
    cases h with
    | @step _ _ b _ hmem w =>
      cases w with
      | refl => exact ⟨a, .refl a, hmem⟩
  | succ n ih =>
    intro a c h
    cases h with
    | @step _ _ b _ hmem w =>
      obtain ⟨b2, hw2, hc2⟩ := ih w
      exact ⟨b2, .step hmem hw2, hc2⟩

/-- Every shorter length is realised by a prefix of a dependency walk. -/
theorem depWalk_take {deps : Nat → Finset Nat} :
    ∀ {n a b}, Cycle.DepWalk deps n a b → ∀ k, k ≤ n →
      ∃ v, Cycle.DepWalk deps k a v := by
  intro n a b h
  induction h with
  | refl a =>
    intro k hk
    have hk0 : k = 0 := by omega
    subst hk0
    exact ⟨a, .refl a⟩
  | @step n a b2 b hmem w ih =>
    intro k hk
    match k with
    | 0 => exact ⟨a, .refl a⟩
    | k + 1 =>
      obtain ⟨v, hv⟩ := ih k (by omega)
      exact ⟨v, .step hmem hv⟩

/-- A target on a dependency cycle has outgoing walks of every
length. -/
theorem depWalk_pump {deps : Nat → Finset Nat} {m t : Nat} (hm : 1 ≤ m)
    (hc : Cycle.DepWalk deps m t t) :
    ∀ n, ∃ v, Cycle.DepWalk deps n t v := by
  intro n
  induction n using Nat.strong_induction_on with
  | _ n ih =>
    by_cases hn : n ≤ m
    · exact depWalk_take hc n hn
    · obtain ⟨v, hv⟩ := ih (n - m) (by omega)
      refine ⟨v, ?_⟩
      have h2 := depWalk_trans hc hv
      rw [show m + (n - m) = n from by omega] at h2
      exact h2

/-- The k-th dependency frontier of `t` is exactly the set of endpoints
of walks of length `k + 1` out of `t`. -/
theorem mem_iter_frontier (deps : Nat → Finset Nat) (t : Nat) :
    ∀ (k v : Nat), v ∈ (Cycle.depFrontier deps)^[k] (deps t) ↔
      Cycle.DepWalk deps (k + 1) t v := by
  intro k
  induction k with
  | zero =>
    intro v
    simp only [Function.iterate_zero, id_eq]
    constructor
    · intro hv
      exact .step hv (.refl v)
    · intro hw
      cases hw with
      | @step _ _ b _ hmem w =>
        cases w with
        | refl => exact hmem
  | succ k ih =>
    intro v
    rw [Function.iterate_succ_apply']
    constructor
    · intro hv
      obtain ⟨u, hu, hvu⟩ := Finset.mem_biUnion.mp hv
      exact depWalk_snoc ((ih u).mp hu) hvu
    · intro hw
      obtain ⟨b, hb, hvb⟩ := depWalk_unsnoc hw
      exact Finset.mem_biUnion.mpr ⟨b, (ih b).mpr hb, hvb⟩

/-- Once a dependency frontier is empty it stays empty. -/
theorem iter_frontier_empty (deps : Nat → Finset Nat) (F : Finset Nat) {j : Nat}
    (h : (Cycle.depFrontier deps)^[j] F = ∅) :
    ∀ k, j ≤ k → (Cycle.depFrontier deps)^[k] F = ∅ := by
  intro k hk
  induction k with
  | zero =>
    have hj0 : j = 0 := by omega
    subst hj0
    exact h
  | succ k ih =>
    by_cases hjk : j ≤ k
    · rw [Function.iterate_succ_apply', ih hjk]
      simp [Cycle.depFrontier]
    · have hj1 : j = k + 1 := by omega
      subst hj1
      exact h

/-- Once a dependency frontier stabilises it stays fixed. -/
theorem iter_frontier_stable (deps : Nat → Finset Nat) (F : Finset Nat) {i : Nat}
    (h : (Cycle.depFrontier deps)^[i + 1] F = (Cycle.depFrontier deps)^[i] F) :
    ∀ k, i ≤ k → (Cycle.depFrontier deps)^[k] F = (Cycle.depFrontier deps)^[i] F := by
  intro k hk
  induction k with
  | zero =>
    have hi0 : i = 0 := by omega
    subst hi0
    rfl
  | succ k ih =>
    by_cases hik : i ≤ k
    · rw [Function.iterate_succ_apply', ih hik,
        ← Function.iterate_succ_apply' (Cycle.depFrontier deps) i F, h]
    · have hi1 : i = k + 1 := by omega
      subst hi1
      rfl

/-- Characterisation of the bounded frontier loop of
`Builder.Initialize`: with the counter invariant of the source
(`counter + fuel = 10`), the loop ends cleanly iff some frontier inside
the fuel bound is empty while the target never reappeared and the
frontier never stabilised before that point. -/
theorem cyclicLoop_false_iff (deps : Nat → Finset Nat) (t : Nat) :
    ∀ (fuel counter : Nat) (F : Finset Nat),
      counter + fuel = 10 → 1 ≤ counter → counter ≤ 9 →
      (Cycle.cyclicLoop deps t counter fuel F = false ↔
        ∃ j, j < fuel ∧ (Cycle.depFrontier deps)^[j] F = ∅ ∧
          ∀ i, i < j → t ∉ (Cycle.depFrontier deps)^[i] F ∧
            (Cycle.depFrontier deps)^[i + 1] F ≠ (Cycle.depFrontier deps)^[i] F) := by
  intro fuel
  induction fuel with
  | zero =>
    intro counter F h1 h2 h3
    omega
  | succ fuel ih =>
    intro counter F h1 h2 h3
    simp only [Cycle.cyclicLoop]
    by_cases hF : F = ∅
    · rw [if_pos hF]
      constructor
      · intro _
        exact ⟨0, by omega, by simpa using hF, by omega⟩
      · intro _
        rfl
    · rw [if_neg hF]
      by_cases htF : t ∈ F
      · rw [if_pos htF]
        simp only [Bool.true_eq_false, false_iff]
        rintro ⟨j, hj, hje, hside⟩
        match j, hje, hside with
        | 0, hje, _ => exact absurd (by simpa using hje) hF
        | j + 1, _, hside => exact absurd htF (hside 0 (by omega)).1
      · rw [if_neg htF]
        by_cases hraise : 10 ≤ counter + 1 ∨ Cycle.depFrontier deps F = F
        · rw [if_pos hraise]
          simp only [Bool.true_eq_false, false_iff]
          rintro ⟨j, hj, hje, hside⟩
          rcases hraise with hcnt | hstab
          · have hfuel : fuel = 0 := by omega
            have hj0 : j = 0 := by omega
            subst hj0
            exact absurd (by simpa using hje) hF
          · match j, hje, hside with
            | 0, hje, _ => exact absurd (by simpa using hje) hF
            | j + 1, hje, hside =>
              refine absurd ?_ (hside 0 (by omega)).2
              simpa using hstab
        · rw [if_neg hraise]
          push_neg at hraise
          obtain ⟨hcnt, hstab⟩ := hraise
          rw [ih (counter + 1) (Cycle.depFrontier deps F) (by omega) (by omega) (by omega)]
          constructor
          · rintro ⟨j, hj, hje, hside⟩
            refine ⟨j + 1, by omega, ?_, ?_⟩
            · rw [Function.iterate_succ_apply]
              exact hje
            · intro i hi
              match i with
              | 0 =>
                refine ⟨by simpa using htF, ?_⟩
                intro hcontra
                refine hstab ?_
                simpa [Function.iterate_succ_apply] using hcontra
              | i + 1 =>
                have hsi := hside i (by omega)
                constructor
                · rw [Function.iterate_succ_apply]
                  exact hsi.1
                · rw [Function.iterate_succ_apply, Function.iterate_succ_apply]
                  exact hsi.2
          · rintro ⟨j, hj, hje, hside⟩
            match j, hje, hside with
            | 0, hje, _ => exact absurd (by simpa using hje) hF
            | j + 1, hje, hside =>
              refine ⟨j, by omega, ?_, ?_⟩
              · rw [← Function.iterate_succ_apply]
                exact hje
              · intro i hi
                have hsi := hside (i + 1) (by omega)
                constructor
                · rw [← Function.iterate_succ_apply]
                  exact hsi.1
                · rw [← Function.iterate_succ_apply, ← Function.iterate_succ_apply]
                  exact hsi.2

/-- The per-target cycle check of `Builder.Initialize` raises exactly
when the target has an outgoing dependency walk of length 9. -/
theorem checkCyclic_iff_walk (deps : Nat → Finset Nat) (t : Nat) :
    Cycle.checkCyclic deps t = true ↔ ∃ v, Cycle.DepWalk deps 9 t v := by
  have hchar := cyclicLoop_false_iff deps t 9 1 (deps t) (by omega) (by omega) (by omega)
  have hfc : Cycle.cyclicLoop deps t 1 9 (deps t) = false ↔
      ¬ ∃ v, Cycle.DepWalk deps 9 t v := by
    rw [hchar]
    constructor
    · rintro ⟨j, hj, hje, _⟩ ⟨v, hv⟩
      have h8 : (Cycle.depFrontier deps)^[8] (deps t) = ∅ :=
        iter_frontier_empty deps (deps t) hje 8 (by omega)
      have hv8 : v ∈ (Cycle.depFrontier deps)^[8] (deps t) :=
        (mem_iter_frontier deps t 8 v).mpr hv
      rw [h8] at hv8
      exact Finset.not_mem_empty v hv8
    · intro hnw
      have h8 : (Cycle.depFrontier deps)^[8] (deps t) = ∅ := by
        by_contra h8
        obtain ⟨v, hv⟩ := Finset.nonempty_iff_ne_empty.mpr h8
        exact hnw ⟨v, (mem_iter_frontier deps t 8 v).mp hv⟩
      have hex : ∃ j, (Cycle.depFrontier deps)^[j] (deps t) = ∅ := ⟨8, h8⟩
      refine ⟨Nat.find hex, by
          have := Nat.find_min' hex h8
          omega, Nat.find_spec hex, ?_⟩
      intro i hi
      constructor
      · intro hti
        have hw : Cycle.DepWalk deps (i + 1) t t := (mem_iter_frontier deps t i t).mp hti
        obtain ⟨v, hv⟩ := depWalk_pump (by omega) hw 9
        exact hnw ⟨v, hv⟩
      · intro hstab
        have h8eq := iter_frontier_stable deps (deps t) hstab 8 (by
          have := Nat.find_min' hex h8
          omega)
        have hine : (Cycle.depFrontier deps)^[i] (deps t) ≠ ∅ := Nat.find_min hex hi
        rw [h8eq] at h8
        exact hine h8
  rw [Cycle.checkCyclic]
  constructor
  · intro h
    by_contra hnw
    rw [hfc.mpr hnw] at h
    exact Bool.noConfusion h
  · intro hw
    cases hb : Cycle.cyclicLoop deps t 1 9 (deps t) with
    | false => exact absurd hw (hfc.mp hb)
    | true => rfl

/-- Every walk along `chainDeps` advances by exactly its length. -/
theorem chainDeps_walk_addition :
    ∀ {n a b : Nat}, Cycle.DepWalk Cycle.chainDeps n a b → b = a + n := by
  intro n a b h
  induction h with
  | refl a => rfl
  | @step n a b2 b hmem w ih =>
    unfold Cycle.chainDeps at hmem
    by_cases ha : a < 9
    · rw [if_pos ha] at hmem
      have hb2 : b2 = a + 1 := Finset.mem_singleton.mp hmem
      omega
    · rw [if_neg ha] at hmem
      exact absurd hmem (Finset.not_mem_empty _)

/-- The ten-target chain is acyclic: no target reaches itself through a
positive-length dependency walk. -/
theorem chainDeps_acyclic : ∀ (n t : Nat), ¬ Cycle.DepWalk Cycle.chainDeps (n + 1) t t := by
  intro n t h
  have := chainDeps_walk_addition h
  omega

/-- C6 counterexample: on the acyclic ten-target chain (graph size 10,
dependency depth 9, so within the claimed graph-size bound) the
validation raises the cyclic-dependency error even though no target is
reachable from itself (bounded self-reachability is false for every
target; `chainDeps_acyclic` proves the unbounded statement). -/
theorem C6_counterexample :
    Cycle.validateRaises Cycle.chainDeps (List.range 10) = true ∧
    (List.range 10).any (fun t => Cycle.selfReachWithin Cycle.chainDeps 10 t) = false := by
  decide

/-- C6 amended: graph validation raises the cyclic-dependency error iff
some target has an outgoing depends-walk of length 9 — the frontier
bound is the constant 10 of the source, not the graph size.  Every
target on a dependency cycle has walks of all lengths and therefore
fails, but an acyclic graph with a dependency chain of depth 9 fails as
well. -/
theorem C6_cycle_check_characterisation (deps : Nat → Finset Nat) (ts : List Nat) :
    Cycle.validateRaises deps ts = true ↔
      ∃ t ∈ ts, ∃ v, Cycle.DepWalk deps 9 t v := by
  rw [Cycle.validateRaises, List.any_eq_true]
  constructor
  · rintro ⟨t, ht, hc⟩
    exact ⟨t, ht, (checkCyclic_iff_walk deps t).mp hc⟩
  · rintro ⟨t, ht, hw⟩
    exact ⟨t, ht, (checkCyclic_iff_walk deps t).mpr hw⟩

/-- Union of a list of finsets. -/
def unionList (l : List (Finset Nat)) : Finset Nat := l.foldr (· ∪ ·) ∅

/-- Every ready layer is contained in the depends set the loop started
from. -/
theorem readyLayers_get?_subset (env : Nat → Order.OTarget) :
    ∀ (fuel : Nat) (ds h : Finset Nat) (i : Nat) (lay : Finset Nat),
      (Order.readyLayers env fuel ds h).get? i = some lay → lay ⊆ ds := by
  intro fuel
  induction fuel with
  | zero =>
    intro ds h i lay hget
    simp [Order.readyLayers] at hget
  | succ fuel ih =>
    intro ds h i lay hget
    by_cases hre : ds.filter (fun x => (env x).depends = ∅ ∨ (env x).depends ⊆ h) = ∅
    · have hL : Order.readyLayers env (fuel + 1) ds h = [] := by
        simp only [Order.readyLayers]
        rw [if_pos hre]
      rw [hL] at hget
      simp at hget
    · have hL : Order.readyLayers env (fuel + 1) ds h =
          ds.filter (fun x => (env x).depends = ∅ ∨ (env x).depends ⊆ h) ::
            Order.readyLayers env fuel
              (ds \ ds.filter (fun x => (env x).depends = ∅ ∨ (env x).depends ⊆ h))
              (h ∪ ds.filter (fun x => (env x).depends = ∅ ∨ (env x).depends ⊆ h)) := by
        simp only [Order.readyLayers]
        rw [if_neg hre]
      rw [hL] at hget
      match i with
      | 0 =>
        rw [List.get?_cons_zero] at hget
        injection hget with hget
        rw [← hget]
        exact Finset.filter_subset _ _
      | i + 1 =>
        rw [List.get?_cons_succ] at hget
        exact (ih _ _ _ _ hget).trans Finset.sdiff_subset

/-- A target of the i-th ready layer has all its dependencies inside the
initially handled set together with the earlier ready layers. -/
theorem readyLayers_get?_depends (env : Nat → Order.OTarget) :
    ∀ (fuel : Nat) (ds h : Finset Nat) (i : Nat) (lay : Finset Nat) (t : Nat),
      (Order.readyLayers env fuel ds h).get? i = some lay → t ∈ lay →
      (env t).depends = ∅ ∨
        (env t).depends ⊆ h ∪ unionList ((Order.readyLayers env fuel ds h).take i) := by
  intro fuel
  induction fuel with
  | zero =>
    intro ds h i lay t hget _
    simp [Order.readyLayers] at hget
  | succ fuel ih =>
    intro ds h i lay t hget hmem
    by_cases hre : ds.filter (fun x => (env x).depends = ∅ ∨ (env x).depends ⊆ h) = ∅
    · have hL : Order.readyLayers env (fuel + 1) ds h = [] := by
        simp only [Order.readyLayers]
        rw [if_pos hre]
      rw [hL] at hget
      simp at hget
    · have hL : Order.readyLayers env (fuel + 1) ds h =
          ds.filter (fun x => (env x).depends = ∅ ∨ (env x).depends ⊆ h) ::
            Order.readyLayers env fuel
              (ds \ ds.filter (fun x => (env x).depends = ∅ ∨ (env x).depends ⊆ h))
              (h ∪ ds.filter (fun x => (env x).depends = ∅ ∨ (env x).depends ⊆ h)) := by
        simp only [Order.readyLayers]
        rw [if_neg hre]
      rw [hL] at hget ⊢
      match i with
      | 0 =>
        rw [List.get?_cons_zero] at hget
        injection hget with hget
        rw [← hget] at hmem
        rcases (Finset.mem_filter.mp hmem).2 with hcase | hcase
        · exact Or.inl hcase
        · refine Or.inr (hcase.trans ?_)
          intro x hx
          exact Finset.mem_union_left _ hx
      | i + 1 =>
        rw [List.get?_cons_succ] at hget
        rcases ih _ _ i lay t hget hmem with hcase | hcase
        · exact Or.inl hcase
        · refine Or.inr (hcase.trans ?_)
          rw [List.take_succ_cons,
            show unionList (ds.filter (fun x => (env x).depends = ∅ ∨ (env x).depends ⊆ h) ::
              (Order.readyLayers env fuel
                (ds \ ds.filter (fun x => (env x).depends = ∅ ∨ (env x).depends ⊆ h))
                (h ∪ ds.filter (fun x => (env x).depends = ∅ ∨ (env x).depends ⊆ h))).take i) =
              ds.filter (fun x => (env x).depends = ∅ ∨ (env x).depends ⊆ h) ∪
                unionList ((Order.readyLayers env fuel
                  (ds \ ds.filter (fun x => (env x).depends = ∅ ∨ (env x).depends ⊆ h))
                  (h ∪ ds.filter (fun x => (env x).depends = ∅ ∨ (env x).depends ⊆ h))).take i)
              from rfl,
            ← Finset.union_assoc]

/-- A member of the union of the first `i` layers lies in a layer with
index below `i`. -/
theorem mem_unionList_take :
    ∀ (l : List (Finset Nat)) (i : Nat) (d : Nat),
      d ∈ unionList (l.take i) → ∃ j lay, j < i ∧ l.get? j = some lay ∧ d ∈ lay := by
  intro l
  induction l with
  | nil =>
    intro i d hd
    simp [unionList] at hd
  | cons s rest ih =>
    intro i d hd
    match i with
    | 0 => simp [unionList] at hd
    | i + 1 =>
      rw [List.take_succ_cons,
        show unionList (s :: rest.take i) = s ∪ unionList (rest.take i) from rfl] at hd
      rcases Finset.mem_union.mp hd with hcase | hcase
      · exact ⟨0, s, Nat.succ_pos i, rfl, hcase⟩
      · obtain ⟨j, lay, hj, hget, hmem⟩ := ih i d hcase
        exact ⟨j + 1, lay, by omega, by simpa using hget, hmem⟩

/-- Two elements drawn from layers with strictly increasing indices form
a sublist of the flattened layer list. -/
theorem pair_sublist_flatMap (g : Finset Nat → List Nat) :
    ∀ (L : List (Finset Nat)) (i k : Nat) (si sk : Finset Nat) (a b : Nat),
      i < k → L.get? i = some si → a ∈ g si → L.get? k = some sk → b ∈ g sk →
      List.Sublist [a, b] (L.flatMap g) := by
  intro L
  induction L with
  | nil =>
    intro i k si sk a b _ hgi _ _ _
    simp at hgi
  | cons s rest ih =>
    intro i k si sk a b hik hgi ha hgk hb
    rw [List.flatMap_cons]
    match i, k with
    | _, 0 => exact absurd hik (Nat.not_lt_zero _)
    | 0, k + 1 =>
      rw [List.get?_cons_zero] at hgi
      injection hgi with hgi
      subst hgi
      rw [List.get?_cons_succ] at hgk
      have hbmem : b ∈ rest.flatMap g :=
        List.mem_flatMap.mpr ⟨sk, List.get?_mem hgk, hb⟩
      exact (List.singleton_sublist.mpr ha).append (List.singleton_sublist.mpr hbmem)
    | i + 1, k + 1 =>
      rw [List.get?_cons_succ] at hgi hgk
      exact (ih i k si sk a b (by omega) hgi ha hgk hb).trans
        (List.sublist_append_right _ _)

/-- Filtering distributes over flattening. -/
theorem filter_flatMap (p : Nat → Bool) (g : Finset Nat → List Nat) :
    ∀ L : List (Finset Nat),
      (L.flatMap g).filter p = L.flatMap (fun s => (g s).filter p) := by
  intro L
  induction L with
  | nil => rfl
  | cons s rest ih =>
    rw [List.flatMap_cons, List.flatMap_cons, List.filter_append, ih]

/-- C4 counterexample: with target 0 an essential concrete target
depending on the concrete non-essential target 1, the orderer emits
`[0, 1]` — the dependency 1 occupies a later position than its dependent
0, because essentials with dependencies are emitted in the second fixed
layer before the ready layers. -/
theorem C4_counterexample :
    Order.orderByDependencies Order.exEnvO {0, 1} {0} = [0, 1] ∧
    (1 : Nat) ∈ (Order.exEnvO 0).depends ∧
    (Order.exEnvO 0).isAbstract = false ∧
    (Order.exEnvO 1).isAbstract = false := by
  have hl : Order.orderLayers Order.exEnvO {0, 1} {0} = [∅, {0}, {1}] := by decide
  refine ⟨?_, by decide, by decide, by decide⟩
  rw [Order.orderByDependencies, hl]
  simp only [List.flatMap_cons, List.flatMap_nil, Finset.sort_empty,
    Finset.sort_singleton, List.nil_append, List.append_nil]
  decide

/-- C4 amended: in the sequence emitted by `_order_by_dependencies`,
depends-before-dependent holds for every target outside the pre-handled
base set (the essentials and everything they provide): if T is emitted,
T is not an essential and not provided by an essential, and a dependency
d of T is also emitted, then d occupies an earlier position than T.
Essential targets themselves are emitted in the two fixed initial layers
and may precede their own dependencies. -/
theorem C4_depends_before_dependent (env : Nat → Order.OTarget)
    (targets essentials : Finset Nat) (T d : Nat)
    (hT : T ∈ Order.orderByDependencies env targets essentials)
    (hTnot : T ∉ Order.baseHandled env essentials)
    (hd : d ∈ (env T).depends)
    (hdm : d ∈ Order.orderByDependencies env targets essentials) :
    List.Sublist [d, T] (Order.orderByDependencies env targets essentials) := by
  have hOBD : Order.orderByDependencies env targets essentials =
      (Order.orderLayers env targets essentials).flatMap
        (fun s => (s.sort (· ≤ ·)).filter (fun x => ! (env x).isAbstract)) := by
    rw [Order.orderByDependencies, filter_flatMap]
  have hLeq : Order.orderLayers env targets essentials =
      (targets ∩ essentials).filter (fun x => (env x).depends = ∅) ::
        (targets ∩ essentials).filter (fun x => (env x).depends ≠ ∅) ::
        Order.readyLayers env 10 (targets \ Order.baseHandled env essentials)
          (Order.baseHandled env essentials) := by
    simp only [Order.orderLayers, List.cons_append, List.nil_append]
  rw [hOBD] at hT hdm ⊢
  obtain ⟨sT, hsTmem, hTg⟩ := List.mem_flatMap.mp hT
  obtain ⟨iT, hiT⟩ := List.mem_iff_get?.mp hsTmem
  have hTfin : T ∈ sT := (Finset.mem_sort _).mp (List.mem_filter.mp hTg).1
  obtain ⟨sd0, hsd0mem, hdg0⟩ := List.mem_flatMap.mp hdm
  obtain ⟨idd, hidd⟩ := List.mem_iff_get?.mp hsd0mem
  have hdfin : d ∈ sd0 := (Finset.mem_sort _).mp (List.mem_filter.mp hdg0).1
  have hdp : (! (env d).isAbstract) = true := (List.mem_filter.mp hdg0).2
  -- T cannot sit in the two essential layers
  match iT, hiT with
  | 0, hiT =>
    rw [hLeq, List.get?_cons_zero] at hiT
    injection hiT with hiT
    rw [← hiT] at hTfin
    have : T ∈ essentials := (Finset.mem_inter.mp (Finset.mem_filter.mp hTfin).1).2
    exact absurd (Finset.mem_union_left _ this) hTnot
  | 1, hiT =>
    rw [hLeq, List.get?_cons_succ, List.get?_cons_zero] at hiT
    injection hiT with hiT
    rw [← hiT] at hTfin
    have : T ∈ essentials := (Finset.mem_inter.mp (Finset.mem_filter.mp hTfin).1).2
    exact absurd (Finset.mem_union_left _ this) hTnot
  | k + 2, hiT =>
    have hiT2 : (Order.readyLayers env 10 (targets \ Order.baseHandled env essentials)
        (Order.baseHandled env essentials)).get? k = some sT := by
      rw [hLeq] at hiT
      simpa using hiT
    rcases readyLayers_get?_depends env 10 _ _ k sT T hiT2 hTfin with hcase | hsub
    · rw [hcase] at hd
      exact absurd hd (Finset.not_mem_empty d)
    · rcases Finset.mem_union.mp (hsub hd) with hdP0 | hdUnion
      · -- d is in the base handled set, so its only layers are the two
        -- essential layers
        match idd, hidd with
        | 0, hidd =>
          refine pair_sublist_flatMap _ _ 0 (k + 2) sd0 sT d T (by omega) hidd hdg0 hiT ?_
          exact hTg
        | 1, hidd =>
          refine pair_sublist_flatMap _ _ 1 (k + 2) sd0 sT d T (by omega) hidd hdg0 hiT ?_
          exact hTg
        | jd + 2, hidd =>
          have hidd2 : (Order.readyLayers env 10
              (targets \ Order.baseHandled env essentials)
              (Order.baseHandled env essentials)).get? jd = some sd0 := by
            rw [hLeq] at hidd
            simpa using hidd
          have hsub0 : sd0 ⊆ targets \ Order.baseHandled env essentials :=
            readyLayers_get?_subset env 10 _ _ jd sd0 hidd2
          have : d ∉ Order.baseHandled env essentials :=
            (Finset.mem_sdiff.mp (hsub0 hdfin)).2
          exact absurd hdP0 this
      · -- d is in an earlier ready layer
        obtain ⟨j, sj, hj, hgetj, hdsj⟩ := mem_unionList_take _ k d hdUnion
        have hgetjL : (Order.orderLayers env targets essentials).get? (j + 2) = some sj := by
          rw [hLeq]
          simpa using hgetj
        refine pair_sublist_flatMap _ _ (j + 2) (k + 2) sj sT d T (by omega) hgetjL ?_ hiT hTg
        exact List.mem_filter.mpr ⟨(Finset.mem_sort _).mpr hdsj, hdp⟩

/-- Witness environment sequence for the ordering theorem: target 1
depends on target 0, nothing essential, emitted order `[0, 1]`. -/
theorem C4_depends_before_dependent_witness :
    List.Sublist [0, 1] (Order.orderByDependencies Order.exEnvW {0, 1} ∅) := by
  have hlist : Order.orderByDependencies Order.exEnvW {0, 1} ∅ = [0, 1] := by
    have hl : Order.orderLayers Order.exEnvW {0, 1} ∅ = [∅, ∅, {0}, {1}] := by decide
    rw [Order.orderByDependencies, hl]
    simp only [List.flatMap_cons, List.flatMap_nil, Finset.sort_empty,
      Finset.sort_singleton, List.nil_append, List.append_nil]
    decide
  exact C4_depends_before_dependent Order.exEnvW {0, 1} ∅ 1 0
    (by rw [hlist]; decide) (by decide) (by decide) (by rw [hlist]; decide)

/-- Witness for `C3_build_invocation` at the concrete filesystem of the
counterexample, whose two mtimes (5 and 1) are positive. -/
theorem C3_build_invocation_witness :
    Core.runTargetStep Core.exFs Core.exEnv Core.exT = Core.BuildOutcome.invoked ↔
      Core.exT.existsInFs = none ∨ Core.specTimestamp Core.exFs Core.exT = 0 ∨
        ∃ d ∈ Core.exT.depends, Core.isAbstract (Core.exEnv d) = false ∧
          Core.specTimestamp Core.exFs Core.exT <
            Core.specTimestamp Core.exFs (Core.exEnv d) :=
  C3_build_invocation Core.exFs Core.exEnv Core.exT (by
    intro p m h
    unfold Core.exFs at h
    by_cases h0 : p = 0
    · rw [if_pos h0] at h
      injection h with h
      rw [← h]
      norm_num
    · rw [if_neg h0] at h
      by_cases h1 : p = 1
      · rw [if_pos h1] at h
        injection h with h
        rw [← h]
        norm_num
      · rw [if_neg h1] at h
        exact Option.noConfusion h)

/-- C7: invoked with an empty request set and no `default` target, the
entry of `Builder.Enqueue` executes `return False, lOutput` where
`lOutput` is an unbound local name, so the resolver crashes with a
`NameError` instead of returning the failure result with a `NoRequest`
diagnostic; no queue is produced and no action callback runs. -/
theorem C7_norequest_crash :
    Request.enqueueEntry (fun _ => none) ∅ = Request.EntryResult.nameErrorCrash := by
  decide

/-- Strict name resolution succeeds exactly when every name is
registered. -/
theorem resolveNamesStrict_ok_iff (index : String → Option Nat) :
    ∀ names : List String,
      (∃ l, Finalize.resolveNamesStrict index names = .ok l) ↔
        ∀ n ∈ names, (index n).isSome := by
  intro names
  induction names with
  | nil => simp [Finalize.resolveNamesStrict]
  | cons n rest ih =>
    rcases hin : index n with _ | t
    · constructor
      · rintro ⟨l, hl⟩
        simp only [Finalize.resolveNamesStrict, hin] at hl
        exact Except.noConfusion hl
      · intro hall
        have h1 := hall n (List.mem_cons_self n rest)
        rw [hin] at h1
        simp at h1
    · rcases hrec : Finalize.resolveNamesStrict index rest with e | l2
      · constructor
        · rintro ⟨l, hl⟩
          simp only [Finalize.resolveNamesStrict, hin, hrec] at hl
          exact Except.noConfusion hl
        · intro hall
          obtain ⟨l, hl⟩ := ih.mpr fun m hm => hall m (List.mem_cons_of_mem n hm)
          rw [hrec] at hl
          exact Except.noConfusion hl
      · constructor
        · rintro ⟨l, hl⟩
          intro m hm
          rcases List.mem_cons.mp hm with heq | hm2
          · subst heq
            rw [hin]
            rfl
          · exact ih.mp ⟨l2, hrec⟩ m hm2
        · intro _
          refine ⟨t :: l2, ?_⟩
          simp only [Finalize.resolveNamesStrict, hin, hrec]

/-- On success, strict name resolution returns exactly the registered
handles of the names. -/
theorem resolveNamesStrict_ok_val (index : String → Option Nat) :
    ∀ (names : List String) (l : List Nat),
      Finalize.resolveNamesStrict index names = .ok l → l = names.filterMap index := by
  intro names
  induction names with
  | nil =>
    intro l hl
    simp only [Finalize.resolveNamesStrict] at hl
    injection hl with hl
    simp [← hl]
  | cons n rest ih =>
    intro l hl
    rcases hin : index n with _ | t
    · simp only [Finalize.resolveNamesStrict, hin] at hl
      exact Except.noConfusion hl
    · rcases hrec : Finalize.resolveNamesStrict index rest with e | l2
      · simp only [Finalize.resolveNamesStrict, hin, hrec] at hl
        exact Except.noConfusion hl
      · simp only [Finalize.resolveNamesStrict, hin, hrec] at hl
        injection hl with hl
        rw [List.filterMap_cons, hin, ← hl, ih l2 hrec]

/-- C8 counterexample: `Target.resolve_dependencies` of yamake/core.py
succeeds on a target whose depends contain the unregistered name
`ghost`: the unknown name is silently dropped instead of failing the
load with `UnresolvedReference`. -/
theorem C8_counterexample :
    Finalize.exIndex "ghost" = none ∧
    Finalize.resolveDependenciesCore Finalize.exIndex ["a", "ghost"] = [0] := by
  decide

/-- C8 amended: the `finalizeInit` pass of yamake.py fails (with a
`KeyError` carrying the missing name) iff some name in `depends` or
`provides` is not registered, and on success every element of the
rewritten lists is the handle registered for the corresponding name;
the `resolve_dependencies` pass of yamake/core.py instead never fails
and silently drops unknown names. -/
theorem C8_finalize_strict (index : String → Option Nat) (t : Finalize.FTarget) :
    ((∃ r, Finalize.finalizeInit index t = .ok r) ↔
      ∀ n ∈ t.depends ++ t.provides, (index n).isSome) ∧
    ∀ ds ps, Finalize.finalizeInit index t = .ok (ds, ps) →
      ds = t.depends.filterMap index ∧ ps = t.provides.filterMap index := by
  constructor
  · constructor
    · rintro ⟨r, hr⟩
      intro m hm
      rcases hd : Finalize.resolveNamesStrict index t.depends with e | ds
      · simp only [Finalize.finalizeInit, hd] at hr
        exact Except.noConfusion hr
      · rcases hp : Finalize.resolveNamesStrict index t.provides with e | ps
        · simp only [Finalize.finalizeInit, hd, hp] at hr
          exact Except.noConfusion hr
        · rcases List.mem_append.mp hm with hm1 | hm2
          · exact (resolveNamesStrict_ok_iff index t.depends).mp ⟨ds, hd⟩ m hm1
          · exact (resolveNamesStrict_ok_iff index t.provides).mp ⟨ps, hp⟩ m hm2
    · intro hall
      obtain ⟨ds, hd⟩ := (resolveNamesStrict_ok_iff index t.depends).mpr
        fun m hm => hall m (List.mem_append.mpr (Or.inl hm))
      obtain ⟨ps, hp⟩ := (resolveNamesStrict_ok_iff index t.provides).mpr
        fun m hm => hall m (List.mem_append.mpr (Or.inr hm))
      refine ⟨(ds, ps), ?_⟩
      simp only [Finalize.finalizeInit, hd, hp]
  · intro ds ps hr
    rcases hd : Finalize.resolveNamesStrict index t.depends with e | ds2
    · simp only [Finalize.finalizeInit, hd] at hr
      exact Except.noConfusion hr
    · rcases hp : Finalize.resolveNamesStrict index t.provides with e | ps2
      · simp only [Finalize.finalizeInit, hd, hp] at hr
        exact Except.noConfusion hr
      · simp only [Finalize.finalizeInit, hd, hp] at hr
        injection hr with hr
        have h1 : ds2 = ds := congrArg Prod.fst hr
        have h2 : ps2 = ps := congrArg Prod.snd hr
        rw [← h1, ← h2]
        exact ⟨resolveNamesStrict_ok_val index t.depends ds2 hd,
          resolveNamesStrict_ok_val index t.provides ps2 hp⟩

/-- Witness for `C8_finalize_strict` at a registered two-name index. -/
theorem C8_finalize_strict_witness :
    (∃ r, Finalize.finalizeInit Finalize.exIndex Finalize.exFT = .ok r) ∧
    ([0] = Finalize.exFT.depends.filterMap Finalize.exIndex ∧
      [1] = Finalize.exFT.provides.filterMap Finalize.exIndex) :=
  ⟨(C8_finalize_strict Finalize.exIndex Finalize.exFT).1.mpr (by decide),
    (C8_finalize_strict Finalize.exIndex Finalize.exFT).2 [0] [1] (by rfl)⟩

/-- A probe fold over targets whose names all differ from `nm` leaves
the timestamp recorded under `nm` unchanged. -/
theorem probe_foldl_preserve (subst : String → String) (fs : String → Option ℚ) :
    ∀ (ts : List TimeStamp.PTarget) (stamps0 : String → ℚ) (nm : String),
      (∀ u ∈ ts, u.name ≠ nm) →
      (ts.foldl (fun st u => TimeStamp.CheckTimeStamp subst fs u st) stamps0) nm =
        stamps0 nm := by
  intro ts
  induction ts with
  | nil =>
    intro s nm _
    rfl
  | cons u rest ih =>
    intro s nm hne
    rw [List.foldl_cons, ih _ nm fun v hv => hne v (List.mem_cons_of_mem u hv)]
    rcases hup : u.existsPath with _ | p
    · simp [TimeStamp.CheckTimeStamp, hup]
    · rcases hfs : fs (subst p) with _ | m
      · simp [TimeStamp.CheckTimeStamp, hup, hfs]
      · simp only [TimeStamp.CheckTimeStamp, hup, hfs]
        exact if_neg fun h => hne u (List.mem_cons_self u rest) h.symm

/-- Value recorded for a target after the probe fold, for any initial
map, provided target names are unique. -/
theorem probe_foldl_value (subst : String → String) (fs : String → Option ℚ) :
    ∀ (ts : List TimeStamp.PTarget) (stamps0 : String → ℚ) (t : TimeStamp.PTarget),
      t ∈ ts → (ts.map TimeStamp.PTarget.name).Nodup →
      (ts.foldl (fun st u => TimeStamp.CheckTimeStamp subst fs u st) stamps0) t.name =
        (match t.existsPath with
          | none => stamps0 t.name
          | some p =>
            match fs (subst p) with
            | none => stamps0 t.name
            | some m => if t.mtimeFlag then m else 1) := by
  intro ts
  induction ts with
  | nil =>
    intro s t hmem _
    exact absurd hmem (List.not_mem_nil t)
  | cons u rest ih =>
    intro s t hmem hnd
    rw [List.foldl_cons]
    rw [List.map_cons, List.nodup_cons] at hnd
    obtain ⟨hhead, hnd2⟩ := hnd
    rcases List.mem_cons.mp hmem with heq | hm2
    · subst heq
      have hpres := probe_foldl_preserve subst fs rest
        (TimeStamp.CheckTimeStamp subst fs t s) t.name
        fun v hv h => hhead (h ▸ List.mem_map_of_mem TimeStamp.PTarget.name hv)
      rw [hpres]
      rcases hup : t.existsPath with _ | p
      · simp [TimeStamp.CheckTimeStamp, hup]
      · rcases hfs : fs (subst p) with _ | m
        · simp [TimeStamp.CheckTimeStamp, hup, hfs]
        · simp [TimeStamp.CheckTimeStamp, hup, hfs]
    · have hneq : u.name ≠ t.name := by
        intro h
        exact hhead (h ▸ List.mem_map_of_mem TimeStamp.PTarget.name hm2)
      rw [ih (TimeStamp.CheckTimeStamp subst fs u s) t hm2 hnd2]
      have hsame : TimeStamp.CheckTimeStamp subst fs u s t.name = s t.name := by
        rcases hup : u.existsPath with _ | p
        · simp [TimeStamp.CheckTimeStamp, hup]
        · rcases hfs : fs (subst p) with _ | m
          · simp [TimeStamp.CheckTimeStamp, hup, hfs]
          · simp only [TimeStamp.CheckTimeStamp, hup, hfs]
            exact if_neg fun h => hneq h.symm
      rw [hsame]

/-- C9: after the timestamp probe, the timestamp recorded for a target
equals 0 when it declares no artifact or the (substituted) path does not
exist, 1.0 when the path exists and the mtime flag (`check_mtime` in the
spec) is unset, and the file mtime when the path exists and the flag is
set.  Names are assumed unique, the load invariant of the builder. -/
theorem C9_probe_timestamps (subst : String → String) (fs : String → Option ℚ)
    (ts : List TimeStamp.PTarget) (t : TimeStamp.PTarget)
    (hmem : t ∈ ts) (hnd : (ts.map TimeStamp.PTarget.name).Nodup) :
    TimeStamp.probeTimeStamps subst fs ts t.name =
      (match t.existsPath with
        | none => 0
        | some p =>
          match fs (subst p) with
          | none => 0
          | some m => if t.mtimeFlag then m else 1) := by
  rw [TimeStamp.probeTimeStamps]
  exact probe_foldl_value subst fs ts (fun _ => 0) t hmem hnd

/-- Witness for `C9_probe_timestamps` at a one-target list whose
artifact exists with mtime 3 and whose mtime flag is set. -/
theorem C9_probe_timestamps_witness :
    TimeStamp.probeTimeStamps id TimeStamp.exPFs [TimeStamp.exPT] TimeStamp.exPT.name = 3 := by
  rw [C9_probe_timestamps id TimeStamp.exPFs [TimeStamp.exPT] TimeStamp.exPT
    (by decide) (by decide)]
  decide

/-- C10: the target index maps each name to at most one target;
registering under an existing name replaces the earlier entry (the
source only logs a warning), and a lookup returns the most recently
registered target of that name. -/
theorem C10_register_last_wins (regs : List Index.RTarget)
    (idx0 : Index.TargetIndexS) (n : String) :
    Index.get (regs.foldl Index.register idx0) n =
      (match regs.reverse.find? (fun u => decide (u.name = n)) with
        | some u => some u
        | none => Index.get idx0 n) := by
  induction regs generalizing idx0 with
  | nil => simp [Index.get]
  | cons u rest ih =>
    rw [List.foldl_cons, List.reverse_cons, List.find?_append, ih (Index.register idx0 u)]
    rcases hfind : rest.reverse.find? (fun x => decide (x.name = n)) with _ | v
    · rw [hfind, Option.none_or]
      by_cases hun : u.name = n
      · rw [List.find?_cons_of_pos _ (by simpa using hun)]
        show Index.get (Index.register idx0 u) n = some u
        simp [Index.get, Index.register, hun]
      · rw [List.find?_cons_of_neg _ (by simpa using hun), List.find?_nil]
        show Index.get (Index.register idx0 u) n = Index.get idx0 n
        simp only [Index.get, Index.register]
        exact if_neg fun h => hun h.symm
    · rw [hfind]
      rfl

end Yamake
